import Mathlib

/-!
Verification of the slice-artifact locator and table/statistics logic of the
3D-printed-concrete-wall dashboard (`app.py`).

Filenames and paths are modelled as `List Char`.  The functions below are
shallow embeddings of the Python source:

* `matchSliceHtml` embeds `re.match(r"slice_z=.*mm\.html$", fname)` (line 28):
  `re.match` anchors at the start only; `.` matches any character except a
  newline; `$` matches at the end of the string or just before a single
  trailing newline.
* `searchZ` / `z_key` embed `re.search(r"slice_z=([0-9]+)mm", f)` with the
  `int(...) if match else 0` fallback (lines 30-32): leftmost match, greedy
  digit run which must be immediately followed by `mm`.
* `get_all_slice_htmls` embeds lines 25-34: filter the directory listing by
  the regex, join each name onto the directory, and sort by `z_key`
  (Python's `sorted` is stable; modelled by a stable insertion sort).
-/

/-- Convert a string literal to the `List Char` representation used throughout. -/
def cs (s : String) : List Char := s.toList

/-- Decimal digit test, as in the character class `[0-9]`. -/
def isDig (c : Char) : Bool := decide (('0') ≤ c) && decide (c ≤ ('9'))

/-- Numeric value of a digit character. -/
def digitVal (c : Char) : Nat := c.toNat - 48

/-- Left fold accumulating a decimal number, as Python's `int` on a digit string. -/
def parseFold (a : Nat) (l : List Char) : Nat :=
  l.foldl (fun acc c => acc * 10 + digitVal c) a

/-- True when the list contains no newline character (the characters `.` can match). -/
def noNl (l : List Char) : Bool := l.all (fun c => c != ('\n'))

/-- Embeds `re.match(r"slice_z=.*mm\.html$", fname)`: the name starts with
`slice_z=`, followed by a newline-free run, followed by `mm.html` at the end
of the string, or just before a single trailing newline (Python `$`). -/
def matchSliceHtml (fname : List Char) : Bool :=
  (cs (r"slice_z=")).isPrefixOf fname &&
    (let r := fname.drop 8
     ((cs (r"mm.html")).isSuffixOf r && noNl (r.take (r.length - 7))) ||
     ((cs (r"mm.html") ++ [('\n')]).isSuffixOf r && noNl (r.take (r.length - 8))))

/-- One attempted match of `slice_z=([0-9]+)mm` at the head of `l`: after the
literal `slice_z=` the greedy digit run must be nonempty and immediately
followed by `mm` (backtracking inside the run cannot succeed because the
character after a shortened run is a digit, not `m`). -/
def tryZAt (l : List Char) : Option Nat :=
  if (cs (r"slice_z=")).isPrefixOf l then
    let r := l.drop 8
    let run := r.takeWhile isDig
    let rest := r.dropWhile isDig
    if run.isEmpty then none
    else if (cs (r"mm")).isPrefixOf rest then some (parseFold 0 run)
    else none
  else none

/-- Embeds `re.search(r"slice_z=([0-9]+)mm", f)`: leftmost position where the
pattern matches, returning the parsed digit group. -/
def searchZ : List Char → Option Nat
  | [] => none
  | c :: t =>
    match tryZAt (c :: t) with
    | some n => some n
    | none => searchZ t

/-- Embeds `z_key` (lines 30-32): the extracted integer, or `0` when the
pattern does not occur in the path. -/
def z_key (f : List Char) : Nat := (searchZ f).getD 0

/-- Embeds `os.path.join(data_dir, fname)` for POSIX paths (two components). -/
def pathJoin (d f : List Char) : List Char :=
  if f.head? = some ('/') then f
  else if d = [] then f
  else if d.getLast? = some ('/') then d ++ f
  else d ++ ('/') :: f

/-- Stable insertion of `x` into `l`: `x` goes in front of the first element
whose key is not smaller, so earlier-inserted equal keys stay behind it. -/
def insertByKey (key : α → Nat) (x : α) : List α → List α
  | [] => [x]
  | y :: ys => if key x ≤ key y then x :: y :: ys else y :: insertByKey key x ys

/-- Stable sort by a natural-number key, modelling Python's stable `sorted(key=...)`. -/
def sortByKey (key : α → Nat) : List α → List α
  | [] => []
  | x :: xs => insertByKey key x (sortByKey key xs)

/-- Embeds `get_all_slice_htmls` (lines 25-34): keep the names matching the
regex, join each onto the directory, and sort by `z_key`.  The directory
listing is passed explicitly (it is what `os.listdir(data_dir)` returned). -/
def get_all_slice_htmls (d : List Char) (listing : List (List Char)) : List (List Char) :=
  sortByKey z_key ((listing.filter matchSliceHtml).map (pathJoin d))

/-- Modelled from the spec words of C1 only, for comparison with the source
filter: `slice_z=<digits>mm.<ext>` with at least one digit required between
`slice_z=` and `mm`, and an arbitrary nonempty extension after a dot. -/
def specSlicePattern (fname : List Char) : Bool :=
  (cs (r"slice_z=")).isPrefixOf fname &&
    (let r := fname.drop 8
     let run := r.takeWhile isDig
     let rest := r.dropWhile isDig
     !run.isEmpty && (cs (r"mm.")).isPrefixOf rest && decide (3 < rest.length))

/-!
### Table model for the eccentricity and summary-statistics sections

A pandas `DataFrame` read by `pd.read_csv` is modelled as an ordered list of
named columns of rational cell values (the CSVs hold finite decimals, exact
in `ℚ`).  `getCol` models `df[name]` (`KeyError`, i.e. `none`, when absent);
`l[i]?` models `.iloc[i]` / `.loc[i, col]` row access on the default
`RangeIndex`.
-/

/-- Ordered, named numeric columns of a loaded table. -/
structure DataFrame where
  cols : List (List Char × List ℚ)

/-- Column lookup by name, as `df[name]` (first column with that name). -/
def getCol (df : DataFrame) (name : List Char) : Option (List ℚ) :=
  match df.cols.find? (fun c => c.fst == name) with
  | some c => some c.snd
  | none => none

/-- Membership test, as `name in df.columns`. -/
def hasCol (df : DataFrame) (name : List Char) : Bool :=
  df.cols.any (fun c => c.fst == name)

/-- `Series.max()` of a nonempty column. -/
def colMax : List ℚ → Option ℚ
  | [] => none
  | x :: xs => some (xs.foldl max x)

/-- `Series.min()` of a nonempty column. -/
def colMin : List ℚ → Option ℚ
  | [] => none
  | x :: xs => some (xs.foldl min x)

/-- `Series.mean()`: sum divided by the row count. -/
def colMean (l : List ℚ) : Option ℚ :=
  if l.isEmpty then none else some (l.sum / (l.length : ℚ))

/-- `Series.var()` with pandas' default `ddof=1`: sample variance, the sum of
squared deviations from the mean divided by `n - 1`; undefined for fewer than
two rows. -/
def colVar (l : List ℚ) : Option ℚ :=
  if l.length < 2 then none
  else
    match colMean l with
    | none => none
    | some m => some (((l.map (fun x => (x - m) ^ 2)).sum) / ((l.length : ℚ) - 1))

/-- `Series.std()` with `ddof=1`: square root of the sample variance. -/
noncomputable def colStd (l : List ℚ) : Option ℝ :=
  (colVar l).map (fun v => Real.sqrt ((v : ℝ)))

/-- First index of the maximum of `x :: xs` together with that maximum
(`Series.idxmax` keeps the first occurrence on ties). -/
def argmaxFrom (x : ℚ) : List ℚ → Nat × ℚ
  | [] => (0, x)
  | y :: ys =>
    let p := argmaxFrom y ys
    if x < p.snd then (p.fst + 1, p.snd) else (0, x)

/-- `Series.idxmax()`: label (position on the default index) of the first
occurrence of the maximum; an error (`none`) on an empty column. -/
def idxmax : List ℚ → Option Nat
  | [] => none
  | x :: xs => some ((argmaxFrom x xs).fst)

/-- Name test of line 127: the lowercased column name contains both
`centroid` and `x` as substrings. -/
def containsSub (pat : List Char) : List Char → Bool
  | [] => pat.isEmpty
  | c :: t => pat.isPrefixOf (c :: t) || containsSub pat t

/-- Lowercasing of a column name, as Python `str.lower` on ASCII names. -/
def lowerStr (l : List Char) : List Char := l.map Char.toLower

/-- The fuzzy centroid-x column predicate of line 127. -/
def isCentroidX (name : List Char) : Bool :=
  containsSub (cs (r"centroid")) (lowerStr name) && containsSub (cs (r"x")) (lowerStr name)

/-- Embeds lines 127-128: the first row's value of the first column whose
lowercased name contains `centroid` and `x`, or `0.0` when no column
qualifies. -/
def xRefOf (df : DataFrame) : Option ℚ :=
  match (df.cols.filter (fun c => isCentroidX c.fst)).head? with
  | none => some 0
  | some c =>
    match getCol df c.fst with
    | none => none
    | some xcol => xcol[0]?

/-- Embeds lines 132-133: the angle at row `i` when the column exists, and
the `None` fallback when it does not. -/
def angleOf (df : DataFrame) (i : Nat) : Option (Option ℚ) :=
  if hasCol df (cs (r"angle_from_bottom_deg")) then
    match getCol df (cs (r"angle_from_bottom_deg")) with
    | none => none
    | some acol =>
      match acol[i]? with
      | none => none
      | some a => some (some a)
  else some none

/-- Result record of the eccentricity section (lines 126-133). -/
structure EccSummary where
  zRef : ℚ
  xRef : ℚ
  maxEcc : ℚ
  maxEccZ : ℚ
  maxEccAngle : Option ℚ
deriving DecidableEq

/-- Embeds the eccentricity block, lines 126-133:
`z_ref = df["Height_mm"].iloc[0]`, the fuzzy centroid-x reference,
`max_ecc = df["eccentricity_mm"].max()`, `max_ecc_idx = ....idxmax()`,
`max_ecc_z = df.loc[max_ecc_idx, "Height_mm"]`, and the angle with its
missing-column fallback.  Any pandas error is `none`. -/
def eccSection (df : DataFrame) : Option EccSummary :=
  match getCol df (cs (r"Height_mm")) with
  | none => none
  | some hcol =>
    match hcol[0]? with
    | none => none
    | some zRef =>
      match xRefOf df with
      | none => none
      | some xRef =>
        match getCol df (cs (r"eccentricity_mm")) with
        | none => none
        | some ecol =>
          match colMax ecol, idxmax ecol with
          | some maxEcc, some i =>
            match hcol[i]? with
            | none => none
            | some maxEccZ =>
              match angleOf df i with
              | none => none
              | some ang => some ⟨zRef, xRef, maxEcc, maxEccZ, ang⟩
          | _, _ => none

/-- Three-row eccentricity table with a tie at the maximum (rows
`(Height=0, ecc=1), (Height=10, ecc=5), (Height=20, ecc=5)`). -/
def tbl3 : DataFrame :=
  ⟨[(cs (r"Height_mm"), [0, 10, 20]), (cs (r"eccentricity_mm"), [1, 5, 5])]⟩

/-- One-row table whose first row is `(Height_mm=0.0, Centroid_X=3.5)`. -/
def tbl5 : DataFrame :=
  ⟨[(cs (r"Height_mm"), [0]), (cs (r"Centroid_X"), [7/2]), (cs (r"eccentricity_mm"), [1])]⟩

/-- Eccentricity table without an `angle_from_bottom_deg` column. -/
def tbl8 : DataFrame :=
  ⟨[(cs (r"Height_mm"), [0, 10, 20]), (cs (r"eccentricity_mm"), [1, 5, 2])]⟩

/-!
### CSV serialization model

`pd.read_csv` (lines 46-47) and `df.to_csv(index=False)` (lines 118, 152)
are modelled for numeric tables: `to_csv` writes the comma-joined header
line followed by one comma-joined line per row, each cell rendered as a
signed decimal numeral; `read_csv` splits the text on newlines, then each
line on commas, and parses each cell as a decimal number.  Cell values are
finite decimals `num / 10 ^ exp` (the exact values float `repr` prints). -/

/-- A finite decimal cell value: `num / 10 ^ exp`. -/
structure Dec where
  num : Int
  exp : Nat
deriving DecidableEq

/-- Rational value of a decimal cell. -/
def decToRat (d : Dec) : ℚ := (d.num : ℚ) / ((10 : ℚ) ^ d.exp)

/-- The character of a decimal digit. -/
def digitChar : Nat → Char
  | 0 => ('0')
  | 1 => ('1')
  | 2 => ('2')
  | 3 => ('3')
  | 4 => ('4')
  | 5 => ('5')
  | 6 => ('6')
  | 7 => ('7')
  | 8 => ('8')
  | 9 => ('9')
  | _ => ('*')

/-- Big-endian decimal digits of `n`, with `fuel` bounding the recursion
depth (called with enough fuel that the `0` case is never reached). -/
def natDigitsGo (fuel n : Nat) (acc : List Char) : List Char :=
  match fuel with
  | 0 => acc
  | fuel + 1 =>
    if n < 10 then digitChar n :: acc
    else natDigitsGo fuel (n / 10) (digitChar (n % 10) :: acc)

/-- Big-endian decimal numeral of `n` (the numeral `0` for zero). -/
def natDigits (n : Nat) : List Char := natDigitsGo (n + 1) n []

/-- Left-pad a digit string with zeros up to length `k`. -/
def padDigits (l : List Char) (k : Nat) : List Char :=
  List.replicate (k - l.length) ('0') ++ l

/-- Signed integer numeral. -/
def writeInt (m : Int) : List Char :=
  (if m < 0 then [('-')] else []) ++ natDigits m.natAbs

/-- Render a decimal cell: an integer numeral when `exp = 0`, otherwise the
padded digit string of `|num|` with a decimal point before the last `exp`
digits, and a leading minus sign for negative values. -/
def writeDec (d : Dec) : List Char :=
  if d.exp = 0 then writeInt d.num
  else
    let ds := padDigits (natDigits d.num.natAbs) (d.exp + 1)
    (if d.num < 0 then [('-')] else []) ++
      ds.take (ds.length - d.exp) ++ ('.') :: ds.drop (ds.length - d.exp)

/-- Parse a nonempty all-digit string. -/
def parseNat (l : List Char) : Option Nat :=
  if l.isEmpty then none
  else if l.all isDig then some (parseFold 0 l) else none

/-- Split on a separator character; `n` separators yield `n + 1` parts. -/
def splitSep (c : Char) : List Char → List (List Char)
  | [] => [[]]
  | a :: t =>
    if a = c then [] :: splitSep c t
    else
      match splitSep c t with
      | [] => [[a]]
      | p :: ps => (a :: p) :: ps

/-- Join parts with a separator character. -/
def joinSep (c : Char) : List (List Char) → List Char
  | [] => []
  | [p] => p
  | p :: q :: rest => p ++ c :: joinSep c (q :: rest)

/-- Parse an unsigned decimal numeral (integer part, optional point and
fraction part) into a `Dec`, negated when `neg` is set. -/
def parseDecSigned (neg : Bool) (r : List Char) : Option Dec :=
  match splitSep ('.') r with
  | [a] =>
    match parseNat a with
    | some n => some ⟨if neg then -(n : Int) else (n : Int), 0⟩
    | none => none
  | [a, b] =>
    match parseNat a, parseNat b with
    | some na, some nb =>
      some ⟨(if neg then -1 else 1) * (((na * 10 ^ b.length + nb : Nat)) : Int), b.length⟩
    | _, _ => none
  | _ => none

/-- Parse a possibly-signed decimal cell. -/
def parseDec (l : List Char) : Option Dec :=
  if l.head? = some ('-') then parseDecSigned true l.tail
  else parseDecSigned false l

/-- Sequence a fallible function over a list, failing if any element fails. -/
def mapOpt (f : α → Option β) : List α → Option (List β)
  | [] => some []
  | a :: t =>
    match f a, mapOpt f t with
    | some b, some bs => some (b :: bs)
    | _, _ => none

/-- A parsed CSV table: a header of column names and rows of decimal cells. -/
structure CsvTable where
  header : List (List Char)
  rows : List (List Dec)
deriving DecidableEq

/-- One serialized CSV row. -/
def writeRow (row : List Dec) : List Char := joinSep (',') (row.map writeDec)

/-- Serialize a table: header line then row lines, newline-joined
(`df.to_csv(index=False)` on a numeric table). -/
def writeCsv (t : CsvTable) : List Char :=
  joinSep ('\n') (joinSep (',') t.header :: t.rows.map writeRow)

/-- Parse one CSV row. -/
def parseRow (l : List Char) : Option (List Dec) := mapOpt parseDec (splitSep (',') l)

/-- Parse CSV text: first line is the header, remaining lines are numeric
rows (`pd.read_csv` on a numeric table). -/
def parseCsv (l : List Char) : Option CsvTable :=
  match splitSep ('\n') l with
  | [] => none
  | h :: rs =>
    match mapOpt parseRow rs with
    | some rows => some ⟨splitSep (',') h, rows⟩
    | none => none

/-- Concrete two-row table used as the round-trip witness:
columns `Height_mm, Area_mm2`, rows `(0.0, 10.5)` and `(10.0, 20.25)`. -/
def tbl6 : CsvTable :=
  ⟨[cs (r"Height_mm"), cs (r"Area_mm2")],
   [[⟨0, 1⟩, ⟨105, 1⟩], [⟨100, 1⟩, ⟨2025, 2⟩]]⟩

/-! ### Lemmas about the stable sort -/

theorem insertByKey_perm (key : α → Nat) (x : α) (l : List α) :
    List.Perm (insertByKey key x l) (x :: l) := by
  induction l with
  | nil => exact List.Perm.refl _
  | cons y ys ih =>
    by_cases h : key x ≤ key y
    · simp [insertByKey, h]
    · simp only [insertByKey, if_neg h]
      exact List.Perm.trans (List.Perm.cons y ih) (List.Perm.swap x y ys)

theorem sortByKey_perm (key : α → Nat) (l : List α) :
    List.Perm (sortByKey key l) l := by
  induction l with
  | nil => exact List.Perm.refl _
  | cons x xs ih =>
    exact List.Perm.trans (insertByKey_perm key x (sortByKey key xs)) (List.Perm.cons x ih)

theorem insertByKey_pairwise (key : α → Nat) (x : α) (l : List α)
    (h : List.Pairwise (fun a b => key a ≤ key b) l) :
    List.Pairwise (fun a b => key a ≤ key b) (insertByKey key x l) := by
  induction l with
  | nil => simp [insertByKey]
  | cons y ys ih =>
    rcases List.pairwise_cons.mp h with ⟨hy, hys⟩
    by_cases hxy : key x ≤ key y
    · simp only [insertByKey, if_pos hxy]
      refine List.pairwise_cons.mpr ⟨?_, h⟩
      intro z hz
      rcases List.mem_cons.mp hz with rfl | hz
      · exact hxy
      · exact le_trans hxy (hy z hz)
    · simp only [insertByKey, if_neg hxy]
      refine List.pairwise_cons.mpr ⟨?_, ih hys⟩
      intro z hz
      have hz2 := (insertByKey_perm key x ys).mem_iff.mp hz
      rcases List.mem_cons.mp hz2 with rfl | hz3
      · exact le_of_lt (lt_of_not_le hxy)
      · exact hy z hz3

theorem sortByKey_pairwise (key : α → Nat) (l : List α) :
    List.Pairwise (fun a b => key a ≤ key b) (sortByKey key l) := by
  induction l with
  | nil => simp [sortByKey]
  | cons x xs ih => exact insertByKey_pairwise key x (sortByKey key xs) ih

theorem insertByKey_filter (key : α → Nat) (x : α) (l : List α) (k : Nat) :
    (insertByKey key x l).filter (fun a => key a == k) =
      if key x = k then x :: l.filter (fun a => key a == k)
      else l.filter (fun a => key a == k) := by
  induction l with
  | nil =>
    simp only [insertByKey]
    by_cases h : key x = k <;> simp [List.filter_cons, h]
  | cons y ys ih =>
    by_cases hxy : key x ≤ key y
    · simp only [insertByKey, if_pos hxy, List.filter_cons]
      by_cases h : key x = k <;> simp [h]
    · have hyx : key y < key x := lt_of_not_le hxy
      simp only [insertByKey, if_neg hxy, List.filter_cons, ih]
      by_cases hy : key y = k
      · have hx : ¬ key x = k := by omega
        simp [hy, hx]
      · by_cases hx : key x = k <;> simp [hy, hx]

theorem sortByKey_filter (key : α → Nat) (l : List α) (k : Nat) :
    (sortByKey key l).filter (fun a => key a == k) = l.filter (fun a => key a == k) := by
  induction l with
  | nil => rfl
  | cons x xs ih =>
    simp only [sortByKey, insertByKey_filter, ih, List.filter_cons]
    by_cases h : key x = k <;> simp [h]

theorem mem_get_all_iff (d : List Char) (listing : List (List Char)) (p : List Char) :
    p ∈ get_all_slice_htmls d listing ↔
      ∃ fname, fname ∈ listing ∧ matchSliceHtml fname = true ∧ p = pathJoin d fname := by
  unfold get_all_slice_htmls
  rw [(sortByKey_perm z_key _).mem_iff]
  constructor
  · intro h
    rcases List.mem_map.mp h with ⟨fname, hmem, rfl⟩
    rcases List.mem_filter.mp hmem with ⟨hin, hmatch⟩
    exact ⟨fname, hin, hmatch, rfl⟩
  · rintro ⟨fname, hin, hmatch, rfl⟩
    exact List.mem_map.mpr ⟨fname, List.mem_filter.mpr ⟨hin, hmatch⟩, rfl⟩

theorem pathJoin_suffix (d f : List Char) : f <:+ pathJoin d f := by
  unfold pathJoin
  split
  · exact List.suffix_refl f
  · split
    · exact List.suffix_refl f
    · split
      · exact List.suffix_append d f
      · exact ⟨d ++ [('/')], by simp⟩

theorem matchSliceHtml_suffix (fname : List Char) (h : matchSliceHtml fname = true) :
    (cs (r".html")) <:+ fname ∨ (cs (r".html") ++ [('\n')]) <:+ fname := by
  simp only [matchSliceHtml, Bool.and_eq_true, Bool.or_eq_true] at h
  rcases h with ⟨-, h | h⟩
  · left
    have h1 : (cs (r"mm.html")) <:+ fname.drop 8 := List.isSuffixOf_iff_suffix.mp h.1
    have h0 : (cs (r".html")) <:+ (cs (r"mm.html")) := by decide
    exact (h0.trans h1).trans (List.drop_suffix 8 fname)
  · right
    have h1 : (cs (r"mm.html") ++ [('\n')]) <:+ fname.drop 8 :=
      List.isSuffixOf_iff_suffix.mp h.1
    have h0 : (cs (r".html") ++ [('\n')]) <:+ (cs (r"mm.html") ++ [('\n')]) := by decide
    exact (h0.trans h1).trans (List.drop_suffix 8 fname)

/-- Claim C1 (corrected, counterexample): the code's filter accepts
`slice_z=mm.html`, which has no digits between `slice_z=` and `mm`, so the
claimed pattern `slice_z=<digits>mm.<ext>` wrongly excludes it; and the code
rejects `slice_z=50mm.svg`, which the claimed pattern (arbitrary extension)
wrongly includes. -/
theorem c1_counterexample :
    (pathJoin (cs (r"data")) (cs (r"slice_z=mm.html"))) ∈
        get_all_slice_htmls (cs (r"data"))
          [cs (r"slice_z=mm.html"), cs (r"slice_z=50mm.svg")] ∧
    specSlicePattern (cs (r"slice_z=mm.html")) = false ∧
    specSlicePattern (cs (r"slice_z=50mm.svg")) = true ∧
    (pathJoin (cs (r"data")) (cs (r"slice_z=50mm.svg"))) ∉
        get_all_slice_htmls (cs (r"data"))
          [cs (r"slice_z=mm.html"), cs (r"slice_z=50mm.svg")] := by
  decide

/-- Claim C1 (amended): `get_all_slice_htmls` includes the joined path of a
listed filename if and only if the name matches `re.match(r"slice_z=.*mm\.html$", ...)`
(literal `slice_z=` at the start, any newline-free run — digits not required —
then `mm.html` ending the name, optionally before one trailing newline);
non-matching files are silently ignored.  On the directory
`{slice_z=100mm.html, readme.txt, slice_z=50mm.html}` the output is exactly
`[data/slice_z=50mm.html, data/slice_z=100mm.html]`. -/
theorem c1_filter_amended :
    (∀ d listing fname, fname ∈ listing → matchSliceHtml fname = true →
        pathJoin d fname ∈ get_all_slice_htmls d listing) ∧
    (∀ d listing p, p ∈ get_all_slice_htmls d listing →
        ∃ fname, fname ∈ listing ∧ matchSliceHtml fname = true ∧ p = pathJoin d fname) ∧
    get_all_slice_htmls (cs (r"data"))
        [cs (r"slice_z=100mm.html"), cs (r"readme.txt"), cs (r"slice_z=50mm.html")] =
      [cs (r"data/slice_z=50mm.html"), cs (r"data/slice_z=100mm.html")] := by
  refine ⟨?_, ?_, by decide⟩
  · intro d listing fname hmem hmatch
    exact (mem_get_all_iff d listing _).mpr ⟨fname, hmem, hmatch, rfl⟩
  · intro d listing p hp
    exact (mem_get_all_iff d listing p).mp hp

/-- Witness for C1's amended theorem at a concrete directory. -/
theorem c1_witness :
    pathJoin (cs (r"data")) (cs (r"slice_z=7mm.html")) ∈
      get_all_slice_htmls (cs (r"data")) [cs (r"slice_z=7mm.html")] :=
  c1_filter_amended.1 (cs (r"data")) [cs (r"slice_z=7mm.html")] (cs (r"slice_z=7mm.html"))
    (by decide) (by decide)

/-- Claim C2 (confirmed): for every directory listing, the sequence returned
by `get_all_slice_htmls` is sorted non-decreasing by the `z_key` height key:
pairwise, and in indexed form (any earlier position has key at most any later
position's key). -/
theorem c2_sorted_by_key :
    (∀ d listing,
        List.Pairwise (fun a b => z_key a ≤ z_key b) (get_all_slice_htmls d listing)) ∧
    (∀ d listing (i j : Fin (get_all_slice_htmls d listing).length), i < j →
        z_key ((get_all_slice_htmls d listing).get i) ≤
          z_key ((get_all_slice_htmls d listing).get j)) := by
  have hp : ∀ d listing,
      List.Pairwise (fun a b => z_key a ≤ z_key b) (get_all_slice_htmls d listing) := by
    intro d listing
    exact sortByKey_pairwise z_key _
  exact ⟨hp, fun d listing i j hij => List.pairwise_iff_get.mp (hp d listing) i j hij⟩

/-- Witness for C2 at a concrete two-element output. -/
theorem c2_witness :
    z_key ((get_all_slice_htmls (cs (r"data"))
        [cs (r"slice_z=100mm.html"), cs (r"slice_z=50mm.html")]).get ⟨0, by decide⟩) ≤
      z_key ((get_all_slice_htmls (cs (r"data"))
        [cs (r"slice_z=100mm.html"), cs (r"slice_z=50mm.html")]).get ⟨1, by decide⟩) :=
  c2_sorted_by_key.2 (cs (r"data")) [cs (r"slice_z=100mm.html"), cs (r"slice_z=50mm.html")]
    ⟨0, by decide⟩ ⟨1, by decide⟩ (by decide)

/-- Claim C4 (confirmed): when `re.search(r"slice_z=([0-9]+)mm", f)` finds no
match, `z_key` returns 0 rather than failing, and such a file still
participates in the sort with key 0 (here `slice_z=mm.html`, key 0, sorts in
front of `slice_z=1mm.html`). -/
theorem c4_zkey_fallback :
    (∀ f, searchZ f = none → z_key f = 0) ∧
    z_key (cs (r"data/slice_z=mm.html")) = 0 ∧
    get_all_slice_htmls (cs (r"data")) [cs (r"slice_z=1mm.html"), cs (r"slice_z=mm.html")] =
      [pathJoin (cs (r"data")) (cs (r"slice_z=mm.html")),
       pathJoin (cs (r"data")) (cs (r"slice_z=1mm.html"))] := by
  refine ⟨?_, by decide, by decide⟩
  intro f h
  simp [z_key, h]

/-- Witness for C4 at a concrete unmatched name. -/
theorem c4_witness : searchZ (cs (r"readme.txt")) = none ∧ z_key (cs (r"readme.txt")) = 0 :=
  ⟨by decide, c4_zkey_fallback.1 (cs (r"readme.txt")) (by decide)⟩

/-- Claim C9 (corrected, counterexample): a directory entry
`slice_z=50mm.html\n` (trailing newline, legal in a POSIX filename) is
accepted by the code's regex because Python's `$` also matches just before a
trailing newline, and the returned path does not end in `.html`. -/
theorem c9_counterexample :
    (cs (r"data/slice_z=50mm.html") ++ [('\n')]) ∈
        get_all_slice_htmls (cs (r"data")) [cs (r"slice_z=50mm.html") ++ [('\n')]] ∧
    (cs (r".html")).isSuffixOf (cs (r"data/slice_z=50mm.html") ++ [('\n')]) = false := by
  decide

/-- Claim C9 (amended): every path returned by `get_all_slice_htmls` ends in
`.html`, or in `.html` followed by a single trailing newline (the one
exception Python's `$` admits); otherwise-matching names with another
extension, e.g. `slice_z=50mm.svg` or `slice_z=50mm.htm`, are excluded. -/
theorem c9_html_suffix_amended :
    (∀ d listing f, f ∈ get_all_slice_htmls d listing →
        (cs (r".html")) <:+ f ∨ (cs (r".html") ++ [('\n')]) <:+ f) ∧
    get_all_slice_htmls (cs (r"data"))
        [cs (r"slice_z=50mm.svg"), cs (r"slice_z=50mm.htm")] = [] := by
  refine ⟨?_, by decide⟩
  intro d listing f hf
  rcases (mem_get_all_iff d listing f).mp hf with ⟨fname, _, hmatch, rfl⟩
  rcases matchSliceHtml_suffix fname hmatch with h | h
  · exact Or.inl (h.trans (pathJoin_suffix d fname))
  · exact Or.inr (h.trans (pathJoin_suffix d fname))

/-- Witness for C9's amended theorem at a concrete directory. -/
theorem c9_witness :
    (cs (r".html")) <:+ (cs (r"data/slice_z=100mm.html")) ∨
      (cs (r".html") ++ [('\n')]) <:+ (cs (r"data/slice_z=100mm.html")) :=
  c9_html_suffix_amended.1 (cs (r"data")) [cs (r"slice_z=100mm.html")]
    (cs (r"data/slice_z=100mm.html")) (by decide)

/-- Claim C10 (confirmed): the sort by height key is stable — restricting the
output of `get_all_slice_htmls` to any fixed key value yields exactly the
matching files in directory-enumeration order, so the output is fully
determined by the enumeration order plus the keys. -/
theorem c10_stable_sort :
    ∀ d listing k,
      (get_all_slice_htmls d listing).filter (fun f => z_key f == k) =
        ((listing.filter matchSliceHtml).map (pathJoin d)).filter (fun f => z_key f == k) := by
  intro d listing k
  simp only [get_all_slice_htmls]
  exact sortByKey_filter z_key _ k

/-! ### Lemmas about the eccentricity section -/

theorem argmaxFrom_spec (xs : List ℚ) : ∀ x : ℚ,
    (argmaxFrom x xs).fst < xs.length + 1 ∧
    (x :: xs).getD (argmaxFrom x xs).fst 0 = (argmaxFrom x xs).snd ∧
    (∀ j, j < xs.length + 1 → (x :: xs).getD j 0 ≤ (argmaxFrom x xs).snd) ∧
    (∀ j, j < (argmaxFrom x xs).fst → (x :: xs).getD j 0 < (argmaxFrom x xs).snd) := by
  induction xs with
  | nil =>
    intro x
    refine ⟨by simp [argmaxFrom], by simp [argmaxFrom], ?_, ?_⟩
    · intro j hj
      have hj0 : j = 0 := by simp at hj; omega
      subst hj0
      simp [argmaxFrom]
    · intro j hj
      simp [argmaxFrom] at hj
  | cons y ys ih =>
    intro x
    obtain ⟨ih1, ih2, ih3, ih4⟩ := ih y
    by_cases h : x < (argmaxFrom y ys).snd
    · simp only [argmaxFrom, if_pos h]
      refine ⟨by simpa using ih1, by simpa using ih2, ?_, ?_⟩
      · intro j hj
        match j with
        | 0 => exact le_of_lt h
        | j + 1 =>
          simp only [List.getD_cons_succ]
          exact ih3 j (by simpa using hj)
      · intro j hj
        match j with
        | 0 => exact h
        | j + 1 =>
          simp only [List.getD_cons_succ]
          exact ih4 j (by omega)
    · simp only [argmaxFrom, if_neg h]
      have hle : (argmaxFrom y ys).snd ≤ x := le_of_not_lt h
      refine ⟨by simp, by simp, ?_, ?_⟩
      · intro j hj
        match j with
        | 0 => simp
        | j + 1 =>
          simp only [List.getD_cons_succ]
          exact le_trans (ih3 j (by simpa using hj)) hle
      · intro j hj
        exact absurd hj (by omega)

theorem idxmax_spec (l : List ℚ) (i : Nat) (h : idxmax l = some i) :
    i < l.length ∧ (∀ j, j < l.length → l.getD j 0 ≤ l.getD i 0) ∧
      (∀ j, j < i → l.getD j 0 < l.getD i 0) := by
  match l with
  | [] => exact Option.noConfusion h
  | x :: xs =>
    obtain ⟨h1, h2, h3, h4⟩ := argmaxFrom_spec xs x
    have hi : i = (argmaxFrom x xs).fst := by
      simpa [idxmax] using h.symm
    subst hi
    refine ⟨by simpa using h1, ?_, ?_⟩
    · intro j hj
      rw [h2]
      exact h3 j (by simpa using hj)
    · intro j hj
      rw [h2]
      exact h4 j hj

theorem hasCol_of_getCol (df : DataFrame) (name : List Char) (col : List ℚ)
    (h : getCol df name = some col) : hasCol df name = true := by
  unfold getCol at h
  unfold hasCol
  rcases hf : df.cols.find? (fun c => c.fst == name) with _ | c
  · rw [hf] at h
    exact Option.noConfusion h
  · have hp := List.find?_some hf
    exact List.any_eq_true.mpr ⟨c, List.mem_of_find?_eq_some hf, hp⟩

theorem eccSection_eq (df : DataFrame) (s : EccSummary) (h : eccSection df = some s) :
    ∃ hcol ecol i,
      getCol df (cs (r"Height_mm")) = some hcol ∧
      getCol df (cs (r"eccentricity_mm")) = some ecol ∧
      hcol[0]? = some s.zRef ∧
      xRefOf df = some s.xRef ∧
      colMax ecol = some s.maxEcc ∧
      idxmax ecol = some i ∧
      hcol[i]? = some s.maxEccZ ∧
      angleOf df i = some s.maxEccAngle := by
  unfold eccSection at h
  split at h
  · exact Option.noConfusion h
  rename_i hcol hH
  split at h
  · exact Option.noConfusion h
  rename_i zRef hz
  split at h
  · exact Option.noConfusion h
  rename_i xRef hx
  split at h
  · exact Option.noConfusion h
  rename_i ecol hE
  split at h
  case _ maxEcc i hME hMI =>
    split at h
    · exact Option.noConfusion h
    rename_i maxEccZ hmz
    split at h
    · exact Option.noConfusion h
    rename_i ang hang
    cases h
    exact ⟨hcol, ecol, i, hH, hE, hz, hx, hME, hMI, hmz, hang⟩
  case _ => exact Option.noConfusion h

theorem xRefOf_no_col (df : DataFrame)
    (h : df.cols.filter (fun c => isCentroidX c.fst) = []) : xRefOf df = some 0 := by
  unfold xRefOf
  rw [h]
  rfl

theorem xRefOf_first_col (df : DataFrame) (c : List Char × List ℚ)
    (rest : List (List Char × List ℚ)) (v : ℚ)
    (h : df.cols.filter (fun c => isCentroidX c.fst) = c :: rest)
    (hx : xRefOf df = some v) :
    ∃ xcol, getCol df c.fst = some xcol ∧ xcol[0]? = some v := by
  unfold xRefOf at hx
  rw [h] at hx
  simp only [List.head?] at hx
  split at hx
  · exact Option.noConfusion hx
  rename_i xcol hxc
  exact ⟨xcol, hxc, hx⟩

theorem angleOf_absent (df : DataFrame) (i : Nat)
    (h : hasCol df (cs (r"angle_from_bottom_deg")) = false) : angleOf df i = some none := by
  unfold angleOf
  rw [h]
  simp

theorem angleOf_present (df : DataFrame) (i : Nat) (acol : List ℚ) (ang : Option ℚ)
    (hA : getCol df (cs (r"angle_from_bottom_deg")) = some acol)
    (h : angleOf df i = some ang) :
    ∃ a, acol[i]? = some a ∧ ang = some a := by
  unfold angleOf at h
  simp only [hasCol_of_getCol df _ acol hA, hA, if_true] at h
  split at h
  · exact Option.noConfusion h
  rename_i a ha
  cases h
  exact ⟨a, ha, rfl⟩

/-- Claim C3 (confirmed): whenever the eccentricity section succeeds, the
selected row index `i` is the first occurrence of the maximum of
`eccentricity_mm` (every entry is at most the entry at `i`, and every earlier
entry is strictly smaller — the deterministic tie-break of `idxmax`), and
`Height_mm` and `angle_from_bottom_deg` (when present) are read from that
same row.  On the rows `(0, 1.0), (10, 5.0), (20, 5.0)` the Height=10 row is
returned. -/
theorem c3_eccentricity_argmax :
    (∀ df s ecol hcol,
        eccSection df = some s →
        getCol df (cs (r"eccentricity_mm")) = some ecol →
        getCol df (cs (r"Height_mm")) = some hcol →
        ∃ i, i < ecol.length ∧
          (∀ j, j < ecol.length → ecol.getD j 0 ≤ ecol.getD i 0) ∧
          (∀ j, j < i → ecol.getD j 0 < ecol.getD i 0) ∧
          hcol[i]? = some s.maxEccZ ∧
          (∀ acol, getCol df (cs (r"angle_from_bottom_deg")) = some acol →
              ∃ a, acol[i]? = some a ∧ s.maxEccAngle = some a)) ∧
    eccSection tbl3 = some ⟨0, 0, 5, 10, none⟩ := by
  refine ⟨?_, by decide⟩
  intro df s ecol hcol hs hE hH
  obtain ⟨hcol0, ecol0, i, hH0, hE0, hz0, hx0, hME0, hMI0, hmz0, hang0⟩ := eccSection_eq df s hs
  have hch : hcol0 = hcol := Option.some.inj (hH0.symm.trans hH)
  have hce : ecol0 = ecol := Option.some.inj (hE0.symm.trans hE)
  rw [hce] at hMI0
  rw [hch] at hmz0
  obtain ⟨hi1, hi2, hi3⟩ := idxmax_spec ecol i hMI0
  refine ⟨i, hi1, hi2, hi3, hmz0, ?_⟩
  intro acol hA
  obtain ⟨a, ha, ha2⟩ := angleOf_present df i acol s.maxEccAngle hA hang0
  exact ⟨a, ha, ha2⟩

/-- Witness for C3 at the tie-breaking example table. -/
theorem c3_witness :
    ∃ i, i < ([(1:ℚ), 5, 5]).length ∧
      (∀ j, j < ([(1:ℚ), 5, 5]).length →
          ([(1:ℚ), 5, 5]).getD j 0 ≤ ([(1:ℚ), 5, 5]).getD i 0) ∧
      (∀ j, j < i → ([(1:ℚ), 5, 5]).getD j 0 < ([(1:ℚ), 5, 5]).getD i 0) ∧
      ([(0:ℚ), 10, 20])[i]? = some (10:ℚ) ∧
      (∀ acol, getCol tbl3 (cs (r"angle_from_bottom_deg")) = some acol →
          ∃ a, acol[i]? = some a ∧ (none : Option ℚ) = some a) :=
  c3_eccentricity_argmax.1 tbl3 ⟨0, 0, 5, 10, none⟩ [1, 5, 5] [0, 10, 20]
    (by decide) (by decide) (by decide)

/-- Claim C5 (confirmed): whenever the eccentricity section succeeds, its
bottom reference is the first row's `Height_mm` together with the first row's
value of the first column whose lowercased name contains both `centroid` and
`x`, and `0.0` when no such column exists; on a table whose first row is
`(Height_mm=0.0, Centroid_X=3.5)` it returns `(0.0, 3.5)`. -/
theorem c5_bottom_reference :
    (∀ df s hcol,
        eccSection df = some s →
        getCol df (cs (r"Height_mm")) = some hcol →
        hcol[0]? = some s.zRef ∧
        (df.cols.filter (fun c => isCentroidX c.fst) = [] → s.xRef = 0) ∧
        (∀ c rest, df.cols.filter (fun c => isCentroidX c.fst) = c :: rest →
            ∃ xcol, getCol df c.fst = some xcol ∧ xcol[0]? = some s.xRef)) ∧
    eccSection tbl5 = some ⟨0, 7/2, 1, 0, none⟩ := by
  refine ⟨?_, by rfl⟩
  intro df s hcol hs hH
  obtain ⟨hcol0, ecol0, i, hH0, hE0, hz0, hx0, hME0, hMI0, hmz0, hang0⟩ := eccSection_eq df s hs
  have hch : hcol0 = hcol := Option.some.inj (hH0.symm.trans hH)
  rw [hch] at hz0
  refine ⟨hz0, ?_, ?_⟩
  · intro hnil
    have := (xRefOf_no_col df hnil).symm.trans hx0
    exact (Option.some.inj this).symm
  · intro c rest hcons
    exact xRefOf_first_col df c rest s.xRef hcons hx0

/-- Witness for C5 at the `(Height_mm=0.0, Centroid_X=3.5)` table. -/
theorem c5_witness :
    ([(0:ℚ)])[0]? = some ((0:ℚ)) ∧
    (tbl5.cols.filter (fun c => isCentroidX c.fst) = [] → ((7:ℚ)/2) = 0) ∧
    (∀ c rest, tbl5.cols.filter (fun c => isCentroidX c.fst) = c :: rest →
        ∃ xcol, getCol tbl5 c.fst = some xcol ∧ xcol[0]? = some ((7:ℚ)/2)) :=
  c5_bottom_reference.1 tbl5 ⟨0, 7/2, 1, 0, none⟩ [0] (by rfl) (by rfl)

/-- Claim C8 (confirmed): when `angle_from_bottom_deg` is absent the
eccentricity section still succeeds and its angle field is `none` rather
than an error — shown concretely on a table without that column, where the
maximum eccentricity and its height are still computed. -/
theorem c8_missing_angle :
    (∀ df s, eccSection df = some s →
        hasCol df (cs (r"angle_from_bottom_deg")) = false → s.maxEccAngle = none) ∧
    hasCol tbl8 (cs (r"angle_from_bottom_deg")) = false ∧
    eccSection tbl8 = some ⟨0, 0, 5, 10, none⟩ := by
  refine ⟨?_, by decide, by decide⟩
  intro df s hs habs
  obtain ⟨hcol0, ecol0, i, hH0, hE0, hz0, hx0, hME0, hMI0, hmz0, hang0⟩ := eccSection_eq df s hs
  have := (angleOf_absent df i habs).symm.trans hang0
  exact (Option.some.inj this).symm

/-- Witness for C8 at the angle-less table. -/
theorem c8_witness : (⟨0, 0, 5, 10, none⟩ : EccSummary).maxEccAngle = none :=
  c8_missing_angle.1 tbl8 ⟨0, 0, 5, 10, none⟩ (by decide) (by decide)

/-! ### Lemmas about the summary statistics -/

theorem colVar_eq (l : List ℚ) (v : ℚ) (hlen : 2 ≤ l.length) (h : colVar l = some v) :
    v = ((l.map (fun x => (x - l.sum / (l.length : ℚ)) ^ 2)).sum) / ((l.length : ℚ) - 1) := by
  unfold colVar at h
  rw [if_neg (by omega)] at h
  have hne : l.isEmpty = false := by
    cases l with
    | nil => simp at hlen
    | cons a t => rfl
  have hm : colMean l = some (l.sum / (l.length : ℚ)) := by
    unfold colMean
    rw [hne]
    simp
  simp only [hm] at h
  exact (Option.some.inj h).symm

theorem colVar_nonneg (l : List ℚ) (v : ℚ) (hlen : 2 ≤ l.length) (h : colVar l = some v) :
    0 ≤ v := by
  rw [colVar_eq l v hlen h]
  apply div_nonneg
  · apply List.sum_nonneg
    intro x hx
    rcases List.mem_map.mp hx with ⟨y, hy, rfl⟩
    positivity
  · have h2 : (2:ℚ) ≤ (l.length : ℚ) := by exact_mod_cast hlen
    linarith

/-- Claim C7 (confirmed): for a column of at least two rows, the sample
variance (`ddof=1`, as pandas `var`) is nonnegative and the standard
deviation is its square root, so `std^2 = var` — the two share the `n-1`
convention; on `Area_mm2 = [10, 20, 30]` the statistics are `max=30`,
`min=10`, `mean=20`, `var=100`, `std=10`. -/
theorem c7_column_stats :
    (∀ (l : List ℚ) (v : ℚ), 2 ≤ l.length → colVar l = some v →
        0 ≤ v ∧ colStd l = some (Real.sqrt ((v : ℝ))) ∧
        Real.sqrt ((v : ℝ)) ^ 2 = ((v : ℝ)) ∧ 0 ≤ Real.sqrt ((v : ℝ))) ∧
    colMax [(10:ℚ), 20, 30] = some 30 ∧
    colMin [(10:ℚ), 20, 30] = some 10 ∧
    colMean [(10:ℚ), 20, 30] = some 20 ∧
    colVar [(10:ℚ), 20, 30] = some 100 ∧
    colStd [(10:ℚ), 20, 30] = some ((10:ℝ)) := by
  have hvar : colVar [(10:ℚ), 20, 30] = some 100 := by
    norm_num [colVar, colMean, List.sum_cons, List.sum_nil]
  refine ⟨?_, by decide, by decide, ?_, hvar, ?_⟩
  · intro l v hlen h
    have hv0 : 0 ≤ v := colVar_nonneg l v hlen h
    have hv0R : (0:ℝ) ≤ ((v : ℝ)) := by exact_mod_cast hv0
    refine ⟨hv0, ?_, Real.sq_sqrt hv0R, Real.sqrt_nonneg _⟩
    unfold colStd
    rw [h]
    rfl
  · norm_num [colMean, List.sum_cons, List.sum_nil]
  · have hs : Real.sqrt (((100:ℚ) : ℝ)) = ((10:ℝ)) := by
      rw [show (((100:ℚ)) : ℝ) = ((10:ℝ)) ^ 2 by norm_num]
      exact Real.sqrt_sq (by norm_num)
    calc colStd [(10:ℚ), 20, 30] = some (Real.sqrt (((100:ℚ) : ℝ))) := by
          unfold colStd
          rw [hvar]
          rfl
      _ = some ((10:ℝ)) := by rw [hs]

/-- Witness for C7 at the `Area_mm2 = [10, 20, 30]` column. -/
theorem c7_witness :
    0 ≤ (100:ℚ) ∧ colStd [(10:ℚ), 20, 30] = some (Real.sqrt (((100:ℚ) : ℝ))) ∧
      Real.sqrt (((100:ℚ) : ℝ)) ^ 2 = (((100:ℚ)) : ℝ) ∧ 0 ≤ Real.sqrt (((100:ℚ) : ℝ)) :=
  c7_column_stats.1 [(10:ℚ), 20, 30] 100 (by decide)
    (by norm_num [colVar, colMean, List.sum_cons, List.sum_nil])

/-! ### Lemmas about decimal numerals -/

theorem digitVal_digitChar (d : Nat) (h : d < 10) : digitVal (digitChar d) = d := by
  interval_cases d <;> rfl

theorem isDig_digitChar (d : Nat) (h : d < 10) : isDig (digitChar d) = true := by
  interval_cases d <;> rfl

theorem isDig_char_ne (c : Char) (h : isDig c = true) :
    c ≠ ('-') ∧ c ≠ ('.') ∧ c ≠ (',') ∧ c ≠ ('\n') := by
  simp only [isDig, Bool.and_eq_true, decide_eq_true_eq] at h
  obtain ⟨h1, h2⟩ := h
  refine ⟨?_, ?_, ?_, ?_⟩ <;> rintro rfl <;> exact absurd h1 (by decide)

theorem parseFold_cons (a : Nat) (c : Char) (t : List Char) :
    parseFold a (c :: t) = parseFold (a * 10 + digitVal c) t := rfl

theorem parseFold_append (a : Nat) (l1 l2 : List Char) :
    parseFold a (l1 ++ l2) = parseFold (parseFold a l1) l2 := by
  simp [parseFold, List.foldl_append]

theorem parseFold_shift (l : List Char) : ∀ a, parseFold a l = a * 10 ^ l.length + parseFold 0 l := by
  induction l with
  | nil => intro a; simp [parseFold]
  | cons c t ih =>
    intro a
    rw [parseFold_cons, parseFold_cons, ih (a * 10 + digitVal c), ih (0 * 10 + digitVal c)]
    simp only [List.length_cons, pow_succ]
    ring

theorem parseFold_zeros (k : Nat) : parseFold 0 (List.replicate k ('0')) = 0 := by
  induction k with
  | zero => rfl
  | succ m ih => simpa [List.replicate_succ, parseFold_cons, digitVal] using ih

theorem natDigitsGo_succ (fuel n : Nat) (acc : List Char) :
    natDigitsGo (fuel + 1) n acc =
      if n < 10 then digitChar n :: acc
      else natDigitsGo fuel (n / 10) (digitChar (n % 10) :: acc) := rfl

theorem natDigitsGo_spec : ∀ (fuel n : Nat), n < 10 ^ (fuel + 1) → ∀ acc,
    ∃ ds, natDigitsGo (fuel + 1) n acc = ds ++ acc ∧ ds ≠ [] ∧
      (∀ c ∈ ds, isDig c = true) ∧ parseFold 0 ds = n := by
  intro fuel
  induction fuel with
  | zero =>
    intro n hn acc
    have h10 : n < 10 := by simpa using hn
    refine ⟨[digitChar n], ?_, by simp, ?_, ?_⟩
    · rw [natDigitsGo_succ, if_pos h10]
      rfl
    · intro c hc
      rcases List.mem_singleton.mp hc with rfl
      exact isDig_digitChar n h10
    · rw [parseFold_cons]
      simp [parseFold, digitVal_digitChar n h10]
  | succ f ih =>
    intro n hn acc
    by_cases h10 : n < 10
    · refine ⟨[digitChar n], ?_, by simp, ?_, ?_⟩
      · rw [natDigitsGo_succ, if_pos h10]
        rfl
      · intro c hc
        rcases List.mem_singleton.mp hc with rfl
        exact isDig_digitChar n h10
      · rw [parseFold_cons]
        simp [parseFold, digitVal_digitChar n h10]
    · have hdiv : n / 10 < 10 ^ (f + 1) := by
        rw [Nat.div_lt_iff_lt_mul (by norm_num)]
        calc n < 10 ^ (f + 1 + 1) := hn
          _ = 10 ^ (f + 1) * 10 := by ring
      obtain ⟨ds1, hds1, hne1, hdig1, hval1⟩ := ih (n / 10) hdiv (digitChar (n % 10) :: acc)
      have hmod : n % 10 < 10 := Nat.mod_lt _ (by norm_num)
      refine ⟨ds1 ++ [digitChar (n % 10)], ?_, by simp, ?_, ?_⟩
      · rw [natDigitsGo_succ, if_neg h10, hds1]
        simp
      · intro c hc
        rcases List.mem_append.mp hc with h1 | h2
        · exact hdig1 c h1
        · rcases List.mem_singleton.mp h2 with rfl
          exact isDig_digitChar _ hmod
      · rw [parseFold_append, hval1, parseFold_cons]
        simp only [parseFold, List.foldl_nil]
        rw [digitVal_digitChar _ hmod]
        omega

theorem natDigits_spec (n : Nat) :
    natDigits n ≠ [] ∧ (∀ c ∈ natDigits n, isDig c = true) ∧
      parseFold 0 (natDigits n) = n := by
  have hn : n < 10 ^ (n + 1) := by
    calc n < 2 ^ n := Nat.lt_two_pow n
      _ ≤ 10 ^ n := Nat.pow_le_pow_left (by norm_num) n
      _ ≤ 10 ^ (n + 1) := Nat.pow_le_pow_right (by norm_num) (by omega)
  obtain ⟨ds, hds, hne, hdig, hval⟩ := natDigitsGo_spec n n hn []
  have : natDigits n = ds := by
    unfold natDigits
    rw [hds, List.append_nil]
  rw [this]
  exact ⟨hne, hdig, hval⟩

/-! ### Lemmas about separators and joining -/

theorem splitSep_no_sep (c : Char) (l : List Char) (h : c ∉ l) : splitSep c l = [l] := by
  induction l with
  | nil => rfl
  | cons a t ih =>
    have ha : ¬ a = c := fun e => h (by simp [e])
    have ht : c ∉ t := fun e => h (List.mem_cons_of_mem a e)
    simp only [splitSep]
    rw [if_neg ha, ih ht]

theorem splitSep_append (c : Char) (a b : List Char) (h : c ∉ a) :
    splitSep c (a ++ c :: b) = a :: splitSep c b := by
  induction a with
  | nil => simp [splitSep]
  | cons x t ih =>
    have hx : ¬ x = c := fun e => h (by simp [e])
    have ht : c ∉ t := fun e => h (List.mem_cons_of_mem x e)
    simp only [List.cons_append, splitSep, List.append_eq]
    rw [if_neg hx, ih ht]

theorem joinSep_mem (c : Char) (parts : List (List Char)) (ch : Char)
    (h : ch ∈ joinSep c parts) : ch = c ∨ ∃ p ∈ parts, ch ∈ p := by
  induction parts with
  | nil => simp [joinSep] at h
  | cons p rest ih =>
    cases rest with
    | nil => exact Or.inr ⟨p, by simp, by simpa [joinSep] using h⟩
    | cons q r =>
      simp only [joinSep] at h
      rcases List.mem_append.mp h with hp | hc
      · exact Or.inr ⟨p, by simp, hp⟩
      · rcases List.mem_cons.mp hc with rfl | hj
        · exact Or.inl rfl
        · rcases ih hj with h1 | ⟨p2, hp2, hcp⟩
          · exact Or.inl h1
          · exact Or.inr ⟨p2, by simp [hp2], hcp⟩

theorem splitSep_joinSep (c : Char) (parts : List (List Char))
    (hne : parts ≠ []) (h : ∀ p ∈ parts, c ∉ p) :
    splitSep c (joinSep c parts) = parts := by
  induction parts with
  | nil => exact absurd rfl hne
  | cons p rest ih =>
    cases rest with
    | nil => exact splitSep_no_sep c p (h p (by simp))
    | cons q r =>
      simp only [joinSep]
      rw [splitSep_append c p _ (h p (by simp)),
        ih (by simp) (fun p2 hp2 => h p2 (List.mem_cons_of_mem p hp2))]

/-! ### Lemmas about cell rendering and parsing -/

theorem padDigits_digits (l : List Char) (k : Nat) (hl : ∀ c ∈ l, isDig c = true) :
    ∀ c ∈ padDigits l k, isDig c = true := by
  intro c hc
  rcases List.mem_append.mp hc with h0 | h1
  · rw [List.eq_of_mem_replicate h0]
    rfl
  · exact hl c h1

theorem parseFold_padDigits (l : List Char) (k : Nat) :
    parseFold 0 (padDigits l k) = parseFold 0 l := by
  unfold padDigits
  rw [parseFold_append, parseFold_zeros]

theorem padDigits_length (l : List Char) (k : Nat) : k ≤ (padDigits l k).length := by
  unfold padDigits
  rw [List.length_append, List.length_replicate]
  omega

theorem parseNat_of_digits (l : List Char) (hne : l ≠ []) (hd : ∀ c ∈ l, isDig c = true) :
    parseNat l = some (parseFold 0 l) := by
  unfold parseNat
  have h1 : l.isEmpty = false := by
    cases l with
    | nil => exact absurd rfl hne
    | cons a t => rfl
  rw [h1]
  simp only [Bool.false_eq_true, if_false]
  rw [if_pos (List.all_eq_true.mpr hd)]

theorem writeDec_chars (d : Dec) (ch : Char) (h : ch ∈ writeDec d) :
    isDig ch = true ∨ ch = ('-') ∨ ch = ('.') := by
  obtain ⟨hne, hdig, hval⟩ := natDigits_spec d.num.natAbs
  unfold writeDec at h
  split at h
  · unfold writeInt at h
    rcases List.mem_append.mp h with hs | hd
    · right; left
      split at hs
      · simpa using hs
      · simp at hs
    · exact Or.inl (hdig ch hd)
  · set ds := padDigits (natDigits d.num.natAbs) (d.exp + 1) with hds
    have hdsd : ∀ c ∈ ds, isDig c = true := padDigits_digits _ _ hdig
    rcases List.mem_append.mp h with hsw | hrest
    · rcases List.mem_append.mp hsw with hs | htk
      · right; left
        split at hs
        · simpa using hs
        · simp at hs
      · exact Or.inl (hdsd ch (List.take_subset _ _ htk))
    · rcases List.mem_cons.mp hrest with rfl | hdr
      · right; right; rfl
      · exact Or.inl (hdsd ch (List.drop_subset _ _ hdr))

theorem writeDec_no_sep (d : Dec) (ch : Char) (h : ch ∈ writeDec d) :
    ¬ ch = (',') ∧ ¬ ch = ('\n') := by
  rcases writeDec_chars d ch h with hd | hm | hp
  · obtain ⟨-, -, h1, h2⟩ := isDig_char_ne ch hd
    exact ⟨h1, h2⟩
  · subst hm
    exact ⟨by decide, by decide⟩
  · subst hp
    exact ⟨by decide, by decide⟩

theorem no_dot_of_digits (l : List Char) (hd : ∀ c ∈ l, isDig c = true) : ('.') ∉ l :=
  fun hm => (isDig_char_ne _ (hd _ hm)).2.1 rfl

theorem parseDec_neg_head (t : List Char) : parseDec (('-') :: t) = parseDecSigned true t := rfl

theorem parseDec_not_neg (l : List Char) (h : ¬ l.head? = some ('-')) :
    parseDec l = parseDecSigned false l := by
  unfold parseDec
  rw [if_neg h]

theorem head_not_minus (l : List Char) (hne : l ≠ []) (hd : ∀ c ∈ l, isDig c = true) :
    ¬ l.head? = some ('-') := by
  cases l with
  | nil => exact absurd rfl hne
  | cons c t =>
    simp only [List.head?_cons]
    intro he
    exact (isDig_char_ne c (hd c (by simp))).1 (Option.some.inj he)

theorem head_not_minus_append (l r : List Char) (hne : l ≠ []) (hd : ∀ c ∈ l, isDig c = true) :
    ¬ (l ++ r).head? = some ('-') := by
  cases l with
  | nil => exact absurd rfl hne
  | cons c t =>
    simp only [List.cons_append, List.head?_cons]
    intro he
    exact (isDig_char_ne c (hd c (by simp))).1 (Option.some.inj he)

theorem parseDec_writeDec (d : Dec) : parseDec (writeDec d) = some d := by
  obtain ⟨num, exp⟩ := d
  obtain ⟨hne, hdig, hval⟩ := natDigits_spec num.natAbs
  by_cases hexp : exp = 0
  · subst hexp
    by_cases hneg : num < 0
    · have hw : writeDec ⟨num, 0⟩ = ('-') :: natDigits num.natAbs := by
        unfold writeDec writeInt
        rw [if_pos rfl, if_pos hneg]
        rfl
      rw [hw, parseDec_neg_head]
      simp only [parseDecSigned, splitSep_no_sep ('.') _ (no_dot_of_digits _ hdig),
        parseNat_of_digits _ hne hdig, hval, if_true]
      simp only [Option.some.injEq, Dec.mk.injEq]
      exact ⟨by omega, trivial⟩
    · have hw : writeDec ⟨num, 0⟩ = natDigits num.natAbs := by
        unfold writeDec writeInt
        rw [if_pos rfl, if_neg hneg]
        rfl
      rw [hw, parseDec_not_neg _ (head_not_minus _ hne hdig)]
      simp only [parseDecSigned, splitSep_no_sep ('.') _ (no_dot_of_digits _ hdig),
        parseNat_of_digits _ hne hdig, hval]
      simp only [Bool.false_eq_true, if_false, Option.some.injEq, Dec.mk.injEq]
      exact ⟨by omega, trivial⟩
  · have hdsd : ∀ c ∈ padDigits (natDigits num.natAbs) (exp + 1), isDig c = true :=
      padDigits_digits _ _ hdig
    have hlen : exp + 1 ≤ (padDigits (natDigits num.natAbs) (exp + 1)).length :=
      padDigits_length _ _
    set ds := padDigits (natDigits num.natAbs) (exp + 1) with hds
    set a := ds.take (ds.length - exp) with ha
    set b := ds.drop (ds.length - exp) with hb
    have hab : a ++ b = ds := List.take_append_drop _ _
    have hbl : b.length = exp := by
      rw [hb, List.length_drop]
      omega
    have hal : a.length = ds.length - exp := by
      rw [ha, List.length_take]
      omega
    have hane : a ≠ [] := by
      apply List.ne_nil_of_length_pos
      omega
    have hbne : b ≠ [] := by
      apply List.ne_nil_of_length_pos
      omega
    have hadig : ∀ c ∈ a, isDig c = true := fun c hc => hdsd c (List.take_subset _ _ hc)
    have hbdig : ∀ c ∈ b, isDig c = true := fun c hc => hdsd c (List.drop_subset _ _ hc)
    have hsplit : splitSep ('.') (a ++ ('.') :: b) = [a, b] := by
      rw [splitSep_append ('.') a b (no_dot_of_digits a hadig),
        splitSep_no_sep ('.') b (no_dot_of_digits b hbdig)]
    have hval2 : parseFold 0 a * 10 ^ b.length + parseFold 0 b = num.natAbs := by
      have h1 : parseFold 0 (a ++ b) = parseFold (parseFold 0 a) b := parseFold_append 0 a b
      rw [parseFold_shift b (parseFold 0 a), hab, hds, parseFold_padDigits, hval] at h1
      omega
    have hw : writeDec ⟨num, exp⟩ =
        (if num < 0 then [('-')] else []) ++ a ++ ('.') :: b := by
      unfold writeDec
      rw [if_neg hexp]
    by_cases hneg : num < 0
    · rw [hw, if_pos hneg]
      have hcons : ([('-')] : List Char) ++ a ++ ('.') :: b = ('-') :: (a ++ ('.') :: b) := by
        simp
      rw [hcons, parseDec_neg_head]
      simp only [parseDecSigned, hsplit, parseNat_of_digits a hane hadig,
        parseNat_of_digits b hbne hbdig, if_true]
      simp only [Option.some.injEq, Dec.mk.injEq]
      refine ⟨?_, hbl⟩
      rw [hval2]
      omega
    · rw [hw, if_neg hneg]
      have hnil : (([] : List Char)) ++ a ++ ('.') :: b = a ++ ('.') :: b := by simp
      rw [hnil, parseDec_not_neg _ (head_not_minus_append a _ hane hadig)]
      simp only [parseDecSigned, hsplit, parseNat_of_digits a hane hadig,
        parseNat_of_digits b hbne hbdig]
      simp only [Bool.false_eq_true, if_false, Option.some.injEq, Dec.mk.injEq]
      refine ⟨?_, hbl⟩
      rw [hval2]
      omega

theorem mapOpt_writeDec (row : List Dec) : mapOpt parseDec (row.map writeDec) = some row := by
  induction row with
  | nil => rfl
  | cons d t ih => simp only [List.map_cons, mapOpt, parseDec_writeDec, ih]

theorem parseRow_writeRow (row : List Dec) (hne : row ≠ []) :
    parseRow (writeRow row) = some row := by
  unfold parseRow writeRow
  rw [splitSep_joinSep (',') (row.map writeDec) (by simpa using hne)
    (fun p hp hch => by
      rcases List.mem_map.mp hp with ⟨d, -, rfl⟩
      exact (writeDec_no_sep d (',') hch).1 rfl)]
  exact mapOpt_writeDec row

theorem mapOpt_writeRow (rows : List (List Dec)) (h : ∀ r ∈ rows, r ≠ []) :
    mapOpt parseRow (rows.map writeRow) = some rows := by
  induction rows with
  | nil => rfl
  | cons r t ih =>
    simp only [List.map_cons, mapOpt, parseRow_writeRow r (h r (by simp)),
      ih (fun x hx => h x (by simp [hx]))]

theorem rowLine_no_newline (row : List Dec) (ch : Char) (hch : ch ∈ writeRow row) :
    ¬ ch = ('\n') := by
  rcases joinSep_mem (',') _ ch hch with rfl | ⟨p, hp, hcp⟩
  · decide
  · rcases List.mem_map.mp hp with ⟨d, -, rfl⟩
    exact (writeDec_no_sep d ch hcp).2

theorem parseCsv_writeCsv (t : CsvTable) (hh : t.header ≠ [])
    (hhc : ∀ nm ∈ t.header, (',') ∉ nm ∧ ('\n') ∉ nm)
    (hr : ∀ row ∈ t.rows, row ≠ []) :
    parseCsv (writeCsv t) = some t := by
  have hlines : ∀ p ∈ joinSep (',') t.header :: t.rows.map writeRow, ('\n') ∉ p := by
    intro p hp hnl
    rcases List.mem_cons.mp hp with rfl | hrow
    · rcases joinSep_mem (',') _ _ hnl with he | ⟨nm, hnm, hin⟩
      · exact absurd he (by decide)
      · exact (hhc nm hnm).2 hin
    · rcases List.mem_map.mp hrow with ⟨row, -, rfl⟩
      exact rowLine_no_newline row _ hnl rfl
  unfold writeCsv parseCsv
  rw [splitSep_joinSep ('\n') _ (by simp) hlines]
  simp only [mapOpt_writeRow t.rows hr]
  rw [splitSep_joinSep (',') t.header hh (fun nm hnm => (hhc nm hnm).1)]

/-- Claim C6 (confirmed): serializing a table (`df.to_csv(index=False)`) and
re-parsing the text (`pd.read_csv`) yields an equivalent table — identical
column names in identical order, identical row count, and cell values equal
within `1e-9` (in fact exactly equal); the hypotheses state that the table is
one a CSV load can produce: a nonempty header of separator-free names and
nonempty rows. -/
theorem c6_roundtrip :
    ∀ t : CsvTable,
      t.header ≠ [] →
      (∀ nm ∈ t.header, (',') ∉ nm ∧ ('\n') ∉ nm) →
      (∀ row ∈ t.rows, row ≠ []) →
      ∃ u, parseCsv (writeCsv t) = some u ∧
        u.header = t.header ∧
        u.rows.length = t.rows.length ∧
        (∀ (i : Nat) (ri ui : List Dec), t.rows[i]? = some ri → u.rows[i]? = some ui →
            ri.length = ui.length ∧
            ∀ (j : Nat) (x y : Dec), ri[j]? = some x → ui[j]? = some y →
              abs (decToRat x - decToRat y) ≤ 1 / 10 ^ 9) := by
  intro t h1 h2 h3
  refine ⟨t, parseCsv_writeCsv t h1 h2 h3, rfl, rfl, ?_⟩
  intro i ri ui hri hui
  obtain rfl : ri = ui := Option.some.inj (hri.symm.trans hui)
  refine ⟨rfl, ?_⟩
  intro j x y hx hy
  obtain rfl : x = y := Option.some.inj (hx.symm.trans hy)
  simp only [sub_self, abs_zero]
  positivity

/-- Witness for C6 at a concrete two-column, two-row table. -/
theorem c6_witness :
    ∃ u, parseCsv (writeCsv tbl6) = some u ∧
      u.header = tbl6.header ∧
      u.rows.length = tbl6.rows.length ∧
      (∀ (i : Nat) (ri ui : List Dec), tbl6.rows[i]? = some ri → u.rows[i]? = some ui →
          ri.length = ui.length ∧
          ∀ (j : Nat) (x y : Dec), ri[j]? = some x → ui[j]? = some y →
            abs (decToRat x - decToRat y) ≤ 1 / 10 ^ 9) :=
  c6_roundtrip tbl6 (by decide) (by decide) (by decide)
